import Mathlib

/-!
Shallow embedding of the `Banyc/algorithm` repository:
* `src/sorting/t_fifo.rs` — `TFifo<K, V>`, a two-tier ordered queue
  (a `BTreeMap<K, VecDeque<V>>` reorder tier plus a `VecDeque<(K, V)>` tail
  sequence), with `insert`, `pop`, `peek`, `len`, `is_empty`.
* `src/hashing/scaling.rs` — `reciprocal_scale_u8/u16/u32`, fixed-point
  multiply-shift scaling.

The `BTreeMap<K, VecDeque<V>>` is embedded as an association list sorted by
strictly increasing keys (`root`), the `VecDeque`s as Lean lists (front of the
deque = head of the list, `push_back` = append at the tail).  Machine `usize`
is embedded as `Nat` (the queue length never overflows in the model).
`unwrap()` on an empty bucket panics in Rust; the embedding returns `none` in
that branch, and the well-formedness invariant `WF` (which holds in every
reachable state) proves the branch unreachable.
-/

/-- `TFifo<K, V>` from `t_fifo.rs`: `root: BTreeMap<K, VecDeque<V>>` (sorted
association list), `list: VecDeque<(K, V)>`, `len: usize`. -/
structure TFifo (K V : Type) where
  root : List (K × List V)
  list : List (K × V)
  len : Nat
  deriving Repr, DecidableEq

namespace TFifo

variable {K V : Type} [LinearOrder K]

/-- `TFifo::new()`: empty map, empty list, `len = 0`. -/
def new : TFifo K V := ⟨[], [], 0⟩

/-- `TFifo::is_empty()`: `self.len == 0`. -/
def is_empty (q : TFifo K V) : Bool := q.len == 0

/-- `self.root.entry(key).or_insert_with(VecDeque::new).push_back(value)` on a
`BTreeMap` embedded as a sorted association list: find the bucket for `key`
(creating it at its sorted position when absent) and append `value` to it. -/
def rootInsert (key : K) (value : V) : List (K × List V) → List (K × List V)
  | [] => [(key, [value])]
  | (k, vs) :: rest =>
    if key < k then (key, [value]) :: (k, vs) :: rest
    else if key = k then (k, vs ++ [value]) :: rest
    else (k, vs) :: rootInsert key value rest

/-- `TFifo::insert(key, value)`: bump `len`; if the tail list is empty or
`key >= *list_tail.0`, `push_back` onto the list, otherwise append into the
reorder map's bucket for `key`. -/
def insert (q : TFifo K V) (key : K) (value : V) : TFifo K V :=
  match q.list.getLast? with
  | none => { q with list := q.list ++ [(key, value)], len := q.len + 1 }
  | some tail =>
    if tail.1 ≤ key then { q with list := q.list ++ [(key, value)], len := q.len + 1 }
    else { q with root := rootInsert key value q.root, len := q.len + 1 }

/-- The tail of `TFifo::pop` from line 74 on: pop the first value of the first
root entry `(k0, vs0)`, removing the entry when it becomes empty.  `n` is the
already-decremented length.  Rust `unwrap()`s the popped value; on an empty
bucket (never reachable, see `WF`) the embedding returns `none`. -/
def popFirstRoot (q : TFifo K V) (k0 : K) (vs0 : List V) (rr : List (K × List V))
    (n : Nat) : Option (K × V) × TFifo K V :=
  match vs0 with
  | [] => (none, { q with len := n })
  | v :: tl =>
    (some (k0, v), { q with root := if tl.isEmpty then rr else (k0, tl) :: rr, len := n })

/-- `TFifo::pop()`: `None` when `len == 0`; otherwise decrement `len`, then
take the list front when the root map is empty or the list front's key is
strictly smaller than the first root key, else pop from the first root entry. -/
def pop (q : TFifo K V) : Option (K × V) × TFifo K V :=
  if q.len = 0 then (none, q)
  else
    match q.root with
    | [] =>
      match q.list with
      | [] => (none, { q with len := q.len - 1 })
      | p :: rest => (some p, { q with list := rest, len := q.len - 1 })
    | (k0, vs0) :: rr =>
      match q.list with
      | (k, v) :: rest =>
        if k < k0 then (some (k, v), { q with list := rest, len := q.len - 1 })
        else popFirstRoot q k0 vs0 rr (q.len - 1)
      | [] => popFirstRoot q k0 vs0 rr (q.len - 1)

/-- `TFifo::peek()`: same selection as `pop`, without mutation.  Rust
`unwrap()`s the bucket front; on an empty bucket the embedding yields `none`. -/
def peek (q : TFifo K V) : Option (K × V) :=
  if q.len = 0 then none
  else
    match q.root with
    | [] => q.list.head?
    | (k0, vs0) :: _ =>
      match q.list with
      | (k, v) :: _ =>
        if k < k0 then some (k, v)
        else vs0.head?.map (fun w => (k0, w))
      | [] => vs0.head?.map (fun w => (k0, w))

/-- Total number of pairs physically stored in the two tiers. -/
def pairsCount (q : TFifo K V) : Nat :=
  q.list.length + (q.root.map (fun e => e.2.length)).sum

/-- Well-formedness of a queue state: the root association list is sorted by
strictly increasing keys, every bucket is non-empty, the tail list's keys are
non-decreasing, and `len` counts the stored pairs.  Every state reachable from
`new` by `insert`/`pop` satisfies it. -/
structure WF (q : TFifo K V) : Prop where
  rootSorted : q.root.Pairwise (fun a b => a.1 < b.1)
  rootNE : ∀ e ∈ q.root, e.2 ≠ []
  listSorted : q.list.Pairwise (fun a b => a.1 ≤ b.1)
  lenEq : q.len = pairsCount q

/-- One caller-visible operation on the queue. -/
inductive Op (K V : Type) where
  | ins : K → V → Op K V
  | pop : Op K V

/-- Apply one operation (a `pop`'s return value is discarded). -/
def step (q : TFifo K V) : Op K V → TFifo K V
  | .ins k v => q.insert k v
  | .pop => (q.pop).2

/-- Run a sequence of operations from the empty queue. -/
def run (ops : List (Op K V)) : TFifo K V := ops.foldl step new

/-- Run a sequence of `insert`s from the empty queue. -/
def runInserts (l : List (K × V)) : TFifo K V :=
  l.foldl (fun q p => q.insert p.1 p.2) new

/-- Repeated `pop` with explicit fuel, stopping at the first `None`. -/
def drainFuel : Nat → TFifo K V → List (K × V)
  | 0, _ => []
  | n + 1, q =>
    match (q.pop).1 with
    | none => []
    | some p => p :: drainFuel n (q.pop).2

/-- Pop everything: `len` pops fully drain a well-formed queue. -/
def drain (q : TFifo K V) : List (K × V) := drainFuel q.len q

/-- `c` is a lower bound for every key stored in `q`. -/
def LBound (c : K) (q : TFifo K V) : Prop :=
  (∀ p ∈ q.list, c ≤ p.1) ∧ ∀ e ∈ q.root, c ≤ e.1

/-- Number of `insert` operations in a sequence. -/
def insCount : List (Op K V) → Nat
  | [] => 0
  | .ins _ _ :: rest => insCount rest + 1
  | .pop :: rest => insCount rest

/-- Number of `pop` operations that return `Some` while running `ops` from
state `q`. -/
def somePops : TFifo K V → List (Op K V) → Nat
  | _, [] => 0
  | q, .ins k v :: rest => somePops (q.insert k v) rest
  | q, .pop :: rest =>
    (if ((q.pop).1).isSome then 1 else 0) + somePops (q.pop).2 rest

/-- Tag each key of the insertion sequence with its position: pair `i` of
`tag ks` is `(ks[i], i)`, so distinct insertions are distinguishable. -/
def tag (ks : List K) : List (K × Nat) := ks.enum.map (fun p => (p.2, p.1))

end TFifo

/-- `reciprocal_scale_u8(val, ep_ro)` from `scaling.rs`:
`((val as u16 * ep_ro as u16) >> 8) as u8`, on `Nat` representatives of `u8`
values (the `u16` product wraps at `2^16`, the final cast at `2^8`). -/
def reciprocal_scale_u8 (val ep_ro : Nat) : Nat :=
  (val * ep_ro % 2 ^ 16) / 2 ^ 8 % 2 ^ 8

/-- `reciprocal_scale_u16(val, ep_ro)`:
`((val as u32 * ep_ro as u32) >> 16) as u16` on `Nat` representatives. -/
def reciprocal_scale_u16 (val ep_ro : Nat) : Nat :=
  (val * ep_ro % 2 ^ 32) / 2 ^ 16 % 2 ^ 16

/-- `reciprocal_scale_u32(val, ep_ro)`:
`((val as u64 * ep_ro as u64) >> 32) as u32` on `Nat` representatives. -/
def reciprocal_scale_u32 (val ep_ro : Nat) : Nat :=
  (val * ep_ro % 2 ^ 64) / 2 ^ 32 % 2 ^ 32

namespace TFifo

variable {K V : Type} [LinearOrder K] {q : TFifo K V}

/-- In a `≤`-pairwise list, every element's key is bounded by the last one's. -/
lemma le_getLast_of_pairwise {l : List (K × V)} {t : K × V}
    (h : l.getLast? = some t) (hp : l.Pairwise (fun a b => a.1 ≤ b.1)) :
    ∀ a ∈ l, a.1 ≤ t.1 := by
  obtain ⟨ys, rfl⟩ := List.getLast?_eq_some_iff.mp h
  intro a ha
  rcases List.mem_append.mp ha with h1 | h2
  · exact (List.pairwise_append.mp hp).2.2 a h1 t (by simp)
  · simp only [List.mem_singleton] at h2
    exact h2 ▸ le_refl _

/-- Keys appearing after `rootInsert` either are the new key or were there. -/
lemma rootInsert_fst_mem (key : K) (value : V) :
    ∀ (l : List (K × List V)), ∀ e ∈ rootInsert key value l,
      e.1 = key ∨ e.1 ∈ l.map Prod.fst := by
  intro l
  induction l with
  | nil =>
    intro e he
    simp only [rootInsert, List.mem_singleton] at he
    exact Or.inl (by simp [he])
  | cons hd tl ih =>
    obtain ⟨k, vs⟩ := hd
    intro e he
    by_cases h1 : key < k
    · simp only [rootInsert, if_pos h1, List.mem_cons] at he
      rcases he with rfl | rfl | he
      · exact Or.inl rfl
      · exact Or.inr (by simp)
      · exact Or.inr (by simp [List.mem_map_of_mem Prod.fst he])
    · by_cases h2 : key = k
      · simp only [rootInsert, if_neg h1, if_pos h2, List.mem_cons] at he
        rcases he with rfl | he
        · exact Or.inl h2.symm
        · exact Or.inr (by simp [List.mem_map_of_mem Prod.fst he])
      · simp only [rootInsert, if_neg h1, if_neg h2, List.mem_cons] at he
        rcases he with rfl | he
        · exact Or.inr (by simp)
        · rcases ih e he with h | h
          · exact Or.inl h
          · exact Or.inr (by simp [h])

/-- `rootInsert` preserves the strict sortedness of the association list. -/
lemma rootInsert_pairwise {key : K} {value : V} :
    ∀ {l : List (K × List V)}, l.Pairwise (fun a b => a.1 < b.1) →
      (rootInsert key value l).Pairwise (fun a b => a.1 < b.1) := by
  intro l
  induction l with
  | nil => intro _; simp [rootInsert]
  | cons hd tl ih =>
    obtain ⟨k, vs⟩ := hd
    intro hp
    rw [List.pairwise_cons] at hp
    obtain ⟨hk, htl⟩ := hp
    by_cases h1 : key < k
    · simp only [rootInsert, if_pos h1]
      refine List.Pairwise.cons ?_ (List.Pairwise.cons hk htl)
      intro b hb
      rcases List.mem_cons.mp hb with rfl | hb
      · exact h1
      · exact lt_trans h1 (hk b hb)
    · by_cases h2 : key = k
      · simp only [rootInsert, if_neg h1, if_pos h2]
        exact List.Pairwise.cons hk htl
      · simp only [rootInsert, if_neg h1, if_neg h2]
        refine List.Pairwise.cons ?_ (ih htl)
        intro b hb
        rcases rootInsert_fst_mem key value tl b hb with h | h
        · have : k < key := lt_of_le_of_ne (not_lt.mp h1) (Ne.symm h2)
          exact h ▸ this
        · obtain ⟨e, he, hfst⟩ := List.mem_map.mp h
          exact hfst ▸ hk e he

/-- `rootInsert` never creates an empty bucket. -/
lemma rootInsert_ne {key : K} {value : V} :
    ∀ {l : List (K × List V)}, (∀ e ∈ l, e.2 ≠ []) →
      ∀ e ∈ rootInsert key value l, e.2 ≠ [] := by
  intro l
  induction l with
  | nil =>
    intro _ e he
    simp only [rootInsert, List.mem_singleton] at he
    simp [he]
  | cons hd tl ih =>
    obtain ⟨k, vs⟩ := hd
    intro hne e he
    by_cases h1 : key < k
    · simp only [rootInsert, if_pos h1, List.mem_cons] at he
      rcases he with rfl | rfl | he
      · simp
      · exact hne (k, vs) (by simp)
      · exact hne e (by simp [he])
    · by_cases h2 : key = k
      · simp only [rootInsert, if_neg h1, if_pos h2, List.mem_cons] at he
        rcases he with rfl | he
        · simp
        · exact hne e (by simp [he])
      · simp only [rootInsert, if_neg h1, if_neg h2, List.mem_cons] at he
        rcases he with rfl | he
        · exact hne (k, vs) (by simp)
        · exact ih (fun e' he' => hne e' (by simp [he'])) e he

/-- `rootInsert` grows the total number of stored values by one. -/
lemma rootInsert_sizes (key : K) (value : V) :
    ∀ (l : List (K × List V)),
      ((rootInsert key value l).map (fun e => e.2.length)).sum
        = (l.map (fun e => e.2.length)).sum + 1 := by
  intro l
  induction l with
  | nil => simp [rootInsert]
  | cons hd tl ih =>
    obtain ⟨k, vs⟩ := hd
    by_cases h1 : key < k
    · simp only [rootInsert, if_pos h1, List.map_cons, List.sum_cons,
        List.length_cons, List.length_nil]
      omega
    · by_cases h2 : key = k
      · simp only [rootInsert, if_neg h1, if_pos h2, List.map_cons, List.sum_cons,
          List.length_append, List.length_cons, List.length_nil]
        omega
      · simp only [rootInsert, if_neg h1, if_neg h2, List.map_cons, List.sum_cons, ih]
        omega

/-- The empty queue is well-formed. -/
lemma wf_new : WF (new : TFifo K V) := by
  constructor <;> simp [new, pairsCount]

/-- Case analysis on `insert`: fast path (append to the tail list, when the
list is empty or its last key is `≤ key`) or slow path (reorder map). -/
lemma insert_shape (q : TFifo K V) (key : K) (value : V) :
    (q.insert key value = { q with list := q.list ++ [(key, value)], len := q.len + 1 } ∧
      (q.list.getLast? = none ∨ ∃ t, q.list.getLast? = some t ∧ t.1 ≤ key)) ∨
    (∃ t, q.list.getLast? = some t ∧ ¬t.1 ≤ key ∧
      q.insert key value = { q with root := rootInsert key value q.root, len := q.len + 1 }) := by
  cases h : q.list.getLast? with
  | none => exact Or.inl ⟨by simp [insert, h], Or.inl rfl⟩
  | some t =>
    by_cases hle : t.1 ≤ key
    · exact Or.inl ⟨by simp [insert, h, hle], Or.inr ⟨t, rfl, hle⟩⟩
    · exact Or.inr ⟨t, rfl, hle, by simp [insert, h, hle]⟩

/-- `insert` preserves well-formedness. -/
lemma WF.insert (h : WF q) (key : K) (value : V) : WF (q.insert key value) := by
  rcases insert_shape q key value with ⟨heq, hcase⟩ | ⟨t, ht, hnle, heq⟩
  · rw [heq]
    refine ⟨h.rootSorted, h.rootNE, ?_, ?_⟩
    · rw [List.pairwise_append]
      refine ⟨h.listSorted, by simp, ?_⟩
      intro a ha b hb
      simp only [List.mem_singleton] at hb
      subst hb
      rcases hcase with hnone | ⟨t, ht, hle⟩
      · rw [List.getLast?_eq_none_iff] at hnone
        simp [hnone] at ha
      · exact le_trans (le_getLast_of_pairwise ht h.listSorted a ha) hle
    · simp [pairsCount, h.lenEq]
      omega
  · rw [heq]
    refine ⟨rootInsert_pairwise h.rootSorted, rootInsert_ne h.rootNE, h.listSorted, ?_⟩
    simp [pairsCount, rootInsert_sizes, h.lenEq]
    omega

/-- Case analysis on a successful `pop` of a well-formed queue: either the tail
list front is removed (its key strictly below every root key), or the first
value of the first root entry is removed (its key at most every tail key). -/
lemma pop_shape (h : WF q) (h0 : q.len ≠ 0) :
    (∃ p rest, q.list = p :: rest ∧
        q.pop = (some p, ⟨q.root, rest, q.len - 1⟩) ∧
        ∀ e ∈ q.root, p.1 < e.1) ∨
    (∃ k0 v0 tl rr, q.root = (k0, v0 :: tl) :: rr ∧
        q.pop = (some (k0, v0),
          ⟨if tl.isEmpty then rr else (k0, tl) :: rr, q.list, q.len - 1⟩) ∧
        ∀ p ∈ q.list, k0 ≤ p.1) := by
  obtain ⟨root, list, len⟩ := q
  simp only at h0
  cases hr : root with
  | nil =>
    cases hl : list with
    | nil =>
      exfalso
      have := h.lenEq
      simp [pairsCount, hr, hl] at this
      omega
    | cons p rest =>
      subst hr hl
      refine Or.inl ⟨p, rest, rfl, ?_, by simp⟩
      simp [pop, h0]
  | cons e rr =>
    obtain ⟨k0, vs0⟩ := e
    have hvs : vs0 ≠ [] := h.rootNE (k0, vs0) (by simp [hr])
    obtain ⟨v0, tl, rfl⟩ : ∃ v0 tl, vs0 = v0 :: tl := by
      cases vs0 with
      | nil => exact absurd rfl hvs
      | cons a b => exact ⟨a, b, rfl⟩
    cases hl : list with
    | nil =>
      subst hr hl
      refine Or.inr ⟨k0, v0, tl, rr, rfl, ?_, by simp⟩
      simp [pop, h0, popFirstRoot]
    | cons p rest =>
      obtain ⟨k, v⟩ := p
      by_cases hlt : k < k0
      · subst hr hl
        refine Or.inl ⟨(k, v), rest, rfl, ?_, ?_⟩
        · simp [pop, h0, hlt]
        · intro e he
          rcases List.mem_cons.mp he with he | he
          · simp [he, hlt]
          · have := List.pairwise_cons.mp h.rootSorted
            exact lt_trans hlt (this.1 e he)
      · subst hr hl
        refine Or.inr ⟨k0, v0, tl, rr, rfl, ?_, ?_⟩
        · simp [pop, h0, hlt, popFirstRoot]
        · intro p hp
          rcases List.mem_cons.mp hp with hp | hp
          · simp [hp, not_lt.mp hlt]
          · have := List.pairwise_cons.mp h.listSorted
            exact le_trans (not_lt.mp hlt) (this.1 p hp)

/-- `pop` preserves well-formedness. -/
lemma WF.pop (h : WF q) : WF (q.pop).2 := by
  by_cases h0 : q.len = 0
  · simpa [TFifo.pop, h0] using h
  · rcases pop_shape h h0 with ⟨p, rest, hl, hpop, _⟩ | ⟨k0, v0, tl, rr, hr, hpop, _⟩
    · rw [hpop]
      have hls := h.listSorted
      rw [hl] at hls
      have hlen := h.lenEq
      rw [pairsCount, hl] at hlen
      refine ⟨h.rootSorted, h.rootNE, (List.pairwise_cons.mp hls).2, ?_⟩
      simp only [pairsCount, List.length_cons] at hlen ⊢
      omega
    · rw [hpop]
      have hrs := h.rootSorted
      rw [hr] at hrs
      have hrne := h.rootNE
      rw [hr] at hrne
      have hlen := h.lenEq
      rw [pairsCount, hr] at hlen
      simp only [List.map_cons, List.sum_cons, List.length_cons] at hlen
      by_cases htl : tl.isEmpty
      · rw [if_pos htl]
        have htl' : tl = [] := List.isEmpty_iff.mp htl
        subst htl'
        simp only [List.length_nil] at hlen
        refine ⟨(List.pairwise_cons.mp hrs).2, ?_, h.listSorted, ?_⟩
        · intro e he
          exact hrne e (List.mem_cons_of_mem _ he)
        · simp only [pairsCount]
          omega
      · rw [if_neg htl]
        have htl' : tl ≠ [] := by
          intro hc
          subst hc
          simp at htl
        refine ⟨?_, ?_, h.listSorted, ?_⟩
        · exact List.Pairwise.cons (List.pairwise_cons.mp hrs).1 (List.pairwise_cons.mp hrs).2
        · intro e he
          rcases List.mem_cons.mp he with rfl | he
          · exact htl'
          · exact hrne e (List.mem_cons_of_mem _ he)
        · simp only [pairsCount, List.map_cons, List.sum_cons]
          omega

/-- A popped pair's key lower-bounds everything left in the queue. -/
lemma pop_LBound (h : WF q) {p : K × V} (hp : (q.pop).1 = some p) :
    LBound p.1 (q.pop).2 := by
  by_cases h0 : q.len = 0
  · simp [TFifo.pop, h0] at hp
  · rcases pop_shape h h0 with ⟨p', rest, hl, hpop, hbound⟩ |
      ⟨k0, v0, tl, rr, hr, hpop, hbound⟩
    · rw [hpop] at hp ⊢
      cases hp
      have hls := h.listSorted
      rw [hl] at hls
      refine ⟨fun a ha => (List.pairwise_cons.mp hls).1 a ha,
        fun e he => le_of_lt (hbound e he)⟩
    · rw [hpop] at hp ⊢
      cases hp
      have hrs := h.rootSorted
      rw [hr] at hrs
      refine ⟨hbound, fun e he => ?_⟩
      by_cases htl : tl.isEmpty
      · rw [if_pos htl] at he
        exact le_of_lt ((List.pairwise_cons.mp hrs).1 e he)
      · rw [if_neg htl] at he
        rcases List.mem_cons.mp he with rfl | he
        · exact le_refl _
        · exact le_of_lt ((List.pairwise_cons.mp hrs).1 e he)

/-- Lower bounds survive a `pop`. -/
lemma LBound_pop {c : K} (h : WF q) (hb : LBound c q) : LBound c (q.pop).2 := by
  by_cases h0 : q.len = 0
  · simpa [TFifo.pop, h0] using hb
  · rcases pop_shape h h0 with ⟨p, rest, hl, hpop, _⟩ | ⟨k0, v0, tl, rr, hr, hpop, _⟩
    · rw [hpop]
      exact ⟨fun a ha => hb.1 a (by rw [hl]; exact List.mem_cons_of_mem _ ha), hb.2⟩
    · rw [hpop]
      refine ⟨hb.1, fun e he => ?_⟩
      by_cases htl : tl.isEmpty
      · rw [if_pos htl] at he
        exact hb.2 e (by rw [hr]; exact List.mem_cons_of_mem _ he)
      · rw [if_neg htl] at he
        rcases List.mem_cons.mp he with rfl | he
        · exact hb.2 (k0, v0 :: tl) (by rw [hr]; exact List.mem_cons_self _ _)
        · exact hb.2 e (by rw [hr]; exact List.mem_cons_of_mem _ he)

/-- A lower bound for the queue bounds whatever `pop` returns. -/
lemma pop_out_LBound {c : K} (h : WF q) (hb : LBound c q) {p : K × V}
    (hp : (q.pop).1 = some p) : c ≤ p.1 := by
  by_cases h0 : q.len = 0
  · simp [TFifo.pop, h0] at hp
  · rcases pop_shape h h0 with ⟨p', rest, hl, hpop, _⟩ |
      ⟨k0, v0, tl, rr, hr, hpop, _⟩
    · rw [hpop] at hp
      cases hp
      exact hb.1 p (by rw [hl]; exact List.mem_cons_self _ _)
    · rw [hpop] at hp
      cases hp
      exact hb.2 (k0, v0 :: tl) (by rw [hr]; exact List.mem_cons_self _ _)

/-- Everything drained out of a lower-bounded queue is lower-bounded. -/
lemma drainFuel_LBound {c : K} :
    ∀ (n : Nat) (q : TFifo K V), WF q → LBound c q →
      ∀ p ∈ drainFuel n q, c ≤ p.1 := by
  intro n
  induction n with
  | zero => intro q _ _ p hp; simp [drainFuel] at hp
  | succ n ih =>
    intro q h hb p hp
    cases hpop : (q.pop).1 with
    | none => simp [drainFuel, hpop] at hp
    | some p0 =>
      simp only [drainFuel, hpop, List.mem_cons] at hp
      rcases hp with rfl | hp
      · exact pop_out_LBound h hb hpop
      · exact ih (q.pop).2 (h.pop) (LBound_pop h hb) p hp

/-- The keys coming out of repeated `pop`s of a well-formed queue are
pairwise non-decreasing. -/
lemma drainFuel_sorted :
    ∀ (n : Nat) (q : TFifo K V), WF q →
      ((drainFuel n q).map Prod.fst).Pairwise (· ≤ ·) := by
  intro n
  induction n with
  | zero => intro q _; simp [drainFuel]
  | succ n ih =>
    intro q h
    cases hpop : (q.pop).1 with
    | none => simp [drainFuel, hpop]
    | some p0 =>
      simp only [drainFuel, hpop, List.map_cons]
      refine List.Pairwise.cons ?_ (ih (q.pop).2 h.pop)
      intro b hb
      obtain ⟨p, hp, rfl⟩ := List.mem_map.mp hb
      exact drainFuel_LBound n (q.pop).2 h.pop (pop_LBound h hpop) p hp

/-- With enough fuel, the tail list comes out of the drain as a sublist
(in order). -/
lemma list_sublist_drainFuel :
    ∀ (n : Nat) (q : TFifo K V), WF q → q.len ≤ n → List.Sublist q.list (drainFuel n q) := by
  intro n
  induction n with
  | zero =>
    intro q h hle
    have hlen := h.lenEq
    rw [pairsCount] at hlen
    have : q.list.length = 0 := by omega
    rw [List.length_eq_zero.mp this]
    exact List.nil_sublist _
  | succ n ih =>
    intro q h hle
    by_cases h0 : q.len = 0
    · have hlen := h.lenEq
      rw [pairsCount] at hlen
      have : q.list.length = 0 := by omega
      rw [List.length_eq_zero.mp this]
      exact List.nil_sublist _
    · rcases pop_shape h h0 with ⟨p, rest, hl, hpop, _⟩ |
        ⟨k0, v0, tl, rr, hr, hpop, _⟩
      · have hq' : (q.pop).2.len ≤ n := by rw [hpop]; simp; omega
        have hrest := ih (q.pop).2 h.pop hq'
        rw [hpop] at hrest
        simp only [drainFuel, hpop]
        rw [hl]
        exact List.Sublist.cons₂ p hrest
      · have hq' : (q.pop).2.len ≤ n := by rw [hpop]; simp; omega
        have hrest := ih (q.pop).2 h.pop hq'
        rw [hpop] at hrest
        simp only [drainFuel, hpop]
        exact List.Sublist.cons _ hrest

/-- With enough fuel, each reorder-map bucket comes out of the drain as a
sublist (in order, under its key). -/
lemma bucket_sublist_drainFuel :
    ∀ (n : Nat) (q : TFifo K V), WF q → q.len ≤ n →
      ∀ k vs, (k, vs) ∈ q.root → List.Sublist (vs.map (fun v => (k, v))) (drainFuel n q) := by
  intro n
  induction n with
  | zero =>
    intro q h hle k vs hmem
    have hlen := h.lenEq
    rw [pairsCount] at hlen
    have hz : vs.length = 0 := by
      have : vs.length ∈ q.root.map (fun e => e.2.length) :=
        List.mem_map.mpr ⟨(k, vs), hmem, rfl⟩
      have := List.le_sum_of_mem this
      omega
    rw [List.length_eq_zero.mp hz]
    exact List.nil_sublist _
  | succ n ih =>
    intro q h hle k vs hmem
    by_cases h0 : q.len = 0
    · have hlen := h.lenEq
      rw [pairsCount] at hlen
      have hz : vs.length = 0 := by
        have : vs.length ∈ q.root.map (fun e => e.2.length) :=
          List.mem_map.mpr ⟨(k, vs), hmem, rfl⟩
        have := List.le_sum_of_mem this
        omega
      rw [List.length_eq_zero.mp hz]
      exact List.nil_sublist _
    · rcases pop_shape h h0 with ⟨p, rest, hl, hpop, _⟩ |
        ⟨k0, v0, tl, rr, hr, hpop, _⟩
      · have hq' : (q.pop).2.len ≤ n := by rw [hpop]; simp; omega
        have hrest := ih (q.pop).2 h.pop hq' k vs (by rw [hpop]; exact hmem)
        rw [hpop] at hrest
        simp only [drainFuel, hpop]
        exact List.Sublist.cons _ hrest
      · have hq' : (q.pop).2.len ≤ n := by rw [hpop]; simp; omega
        rw [hr] at hmem
        rcases List.mem_cons.mp hmem with heq | hmem'
        · cases heq
          simp only [drainFuel, hpop, List.map_cons]
          cases tl with
          | nil =>
            simp only [List.map_nil]
            exact List.Sublist.cons₂ _ (List.nil_sublist _)
          | cons a tla =>
            have hmem'' : (k, a :: tla) ∈ (q.pop).2.root := by
              rw [hpop]
              simp [List.isEmpty]
            have := ih (q.pop).2 h.pop hq' k (a :: tla) hmem''
            rw [hpop] at this
            exact List.Sublist.cons₂ _ this
        · have hmem'' : (k, vs) ∈ (q.pop).2.root := by
            rw [hpop]
            by_cases htl : tl.isEmpty
            · simpa [if_pos htl] using hmem'
            · simp only [if_neg htl]
              exact List.mem_cons_of_mem _ hmem'
          have := ih (q.pop).2 h.pop hq' k vs hmem''
          rw [hpop] at this
          simp only [drainFuel, hpop]
          exact List.Sublist.cons _ this

/-- Every state reachable from the empty queue by `insert`/`pop` operations is
well-formed. -/
lemma wf_run (ops : List (Op K V)) : WF (run ops) := by
  suffices h : ∀ (ops : List (Op K V)) (q : TFifo K V), WF q → WF (ops.foldl step q) by
    exact h ops new wf_new
  intro ops
  induction ops with
  | nil => intro q h; exact h
  | cons op rest ih =>
    intro q h
    cases op with
    | ins k v => exact ih _ (h.insert k v)
    | pop => exact ih _ h.pop

/-- States built by `insert`s alone are well-formed. -/
lemma wf_runInserts (l : List (K × V)) : WF (runInserts l) := by
  suffices h : ∀ (l : List (K × V)) (q : TFifo K V), WF q →
      WF (l.foldl (fun q p => q.insert p.1 p.2) q) by
    exact h l new wf_new
  intro l
  induction l with
  | nil => intro q h; exact h
  | cons p rest ih => intro q h; exact ih _ (h.insert p.1 p.2)

/-- `insert` always increments `len` by one. -/
lemma insert_len (q : TFifo K V) (key : K) (value : V) :
    (q.insert key value).len = q.len + 1 := by
  rcases insert_shape q key value with ⟨heq, _⟩ | ⟨t, _, _, heq⟩ <;> rw [heq]

/-- Running `ops` from a well-formed state changes `len` by
(number of inserts) − (number of successful pops). -/
lemma foldl_len_eq (ops : List (Op K V)) :
    ∀ (q : TFifo K V), WF q →
      (ops.foldl step q).len + somePops q ops = q.len + insCount ops := by
  induction ops with
  | nil => intro q _; simp [somePops, insCount]
  | cons op rest ih =>
    intro q h
    cases op with
    | ins k v =>
      have := ih (q.insert k v) (h.insert k v)
      simp only [List.foldl_cons, step, somePops, insCount, insert_len] at this ⊢
      omega
    | pop =>
      by_cases h0 : q.len = 0
      · have hpop : q.pop = (none, q) := by simp [TFifo.pop, h0]
        have := ih (q.pop).2 h.pop
        simp only [List.foldl_cons, step, somePops, insCount, hpop, Option.isSome_none,
          Bool.false_eq_true, if_false] at this ⊢
        omega
      · have hlen : (q.pop).2.len = q.len - 1 := by
          rcases pop_shape h h0 with ⟨p, rest', hl, hpop, _⟩ |
            ⟨k0, v0, tl, rr, hr, hpop, _⟩ <;> rw [hpop]
        have hsome : ((q.pop).1).isSome = true := by
          rcases pop_shape h h0 with ⟨p, rest', hl, hpop, _⟩ |
            ⟨k0, v0, tl, rr, hr, hpop, _⟩ <;> rw [hpop] <;> rfl
        have := ih (q.pop).2 h.pop
        simp only [List.foldl_cons, step, somePops, insCount, hsome, if_true, hlen] at this ⊢
        omega

/-- `peek` computes exactly the first component of `pop` on a well-formed
queue. -/
lemma peek_eq_pop_fst (h : WF q) : q.peek = (q.pop).1 := by
  by_cases h0 : q.len = 0
  · simp [peek, pop, h0]
  · obtain ⟨root, list, len⟩ := q
    simp only at h0
    cases hr : root with
    | nil =>
      cases hl : list with
      | nil => simp [peek, pop, h0]
      | cons p rest => simp [peek, pop, h0]
    | cons e rr =>
      obtain ⟨k0, vs0⟩ := e
      have hvs : vs0 ≠ [] := by
        have := h.rootNE (k0, vs0)
        rw [hr] at this
        exact this (List.mem_cons_self _ _)
      obtain ⟨v0, tl, rfl⟩ : ∃ v0 tl, vs0 = v0 :: tl := by
        cases vs0 with
        | nil => exact absurd rfl hvs
        | cons a b => exact ⟨a, b, rfl⟩
      subst hr
      cases hl : list with
      | nil => simp [peek, pop, h0, popFirstRoot]
      | cons p rest =>
        obtain ⟨k, v⟩ := p
        by_cases hlt : k < k0
        · simp [peek, pop, h0, hlt]
        · simp [peek, pop, h0, hlt, popFirstRoot]

/-- Characterize bucket membership after `rootInsert` on a sorted root:
either an untouched bucket with a different key, or the fresh singleton
bucket for `key`, or the old bucket for `key` with `value` appended. -/
lemma mem_rootInsert {key : K} {value : V} :
    ∀ {root : List (K × List V)}, root.Pairwise (fun a b => a.1 < b.1) →
      ∀ {k : K} {vs : List V}, (k, vs) ∈ rootInsert key value root →
      ((k, vs) ∈ root ∧ k ≠ key) ∨
      (k = key ∧ vs = [value]) ∨
      (k = key ∧ ∃ vs0, (key, vs0) ∈ root ∧ vs = vs0 ++ [value]) := by
  intro root
  induction root with
  | nil =>
    intro _ k vs hmem
    simp only [rootInsert, List.mem_singleton, Prod.mk.injEq] at hmem
    exact Or.inr (Or.inl ⟨hmem.1, hmem.2⟩)
  | cons hd rest ih =>
    obtain ⟨k0, vs0⟩ := hd
    intro hs k vs hmem
    have hhd := (List.pairwise_cons.mp hs).1
    have hrest := (List.pairwise_cons.mp hs).2
    by_cases h1 : key < k0
    · simp only [rootInsert, if_pos h1, List.mem_cons, Prod.mk.injEq] at hmem
      rcases hmem with ⟨rfl, rfl⟩ | ⟨rfl, rfl⟩ | hmem
      · exact Or.inr (Or.inl ⟨rfl, rfl⟩)
      · exact Or.inl ⟨List.mem_cons_self _ _, ne_of_gt h1⟩
      · refine Or.inl ⟨List.mem_cons_of_mem _ hmem, ?_⟩
        have : k0 < (k, vs).1 := hhd (k, vs) hmem
        exact ne_of_gt (lt_trans h1 this)
    · by_cases h2 : key = k0
      · simp only [rootInsert, if_neg h1, if_pos h2, List.mem_cons, Prod.mk.injEq] at hmem
        rcases hmem with ⟨rfl, rfl⟩ | hmem
        · subst h2
          exact Or.inr (Or.inr ⟨rfl, vs0, List.mem_cons_self _ _, rfl⟩)
        · refine Or.inl ⟨List.mem_cons_of_mem _ hmem, ?_⟩
          have : k0 < (k, vs).1 := hhd (k, vs) hmem
          exact ne_of_gt (h2 ▸ this)
      · have h3 : k0 < key := lt_of_le_of_ne (not_lt.mp h1) (Ne.symm h2)
        simp only [rootInsert, if_neg h1, if_neg h2, List.mem_cons, Prod.mk.injEq] at hmem
        rcases hmem with ⟨rfl, rfl⟩ | hmem
        · exact Or.inl ⟨List.mem_cons_self _ _, ne_of_lt h3⟩
        · rcases ih hrest hmem with ⟨hin, hne⟩ | ⟨rfl, rfl⟩ | ⟨rfl, vs1, hin, rfl⟩
          · exact Or.inl ⟨List.mem_cons_of_mem _ hin, hne⟩
          · exact Or.inr (Or.inl ⟨rfl, rfl⟩)
          · exact Or.inr (Or.inr ⟨rfl, vs1, List.mem_cons_of_mem _ hin, rfl⟩)

/-- Unfolding `runInserts` over a final single insertion. -/
lemma runInserts_concat (l : List (K × V)) (p : K × V) :
    runInserts (l ++ [p]) = (runInserts l).insert p.1 p.2 := by
  simp [runInserts, List.foldl_append]

/-- Every pair in the tail list of a pure-insert run was inserted. -/
lemma runInserts_mem_list :
    ∀ (l : List (K × V)) (p : K × V), p ∈ (runInserts l).list → p ∈ l := by
  intro l
  induction l using List.reverseRecOn with
  | nil => intro p hp; simp [runInserts, new] at hp
  | append_singleton l p ih =>
    intro x hx
    rw [runInserts_concat] at hx
    rcases insert_shape (runInserts l) p.1 p.2 with ⟨heq, _⟩ | ⟨t, _, _, heq⟩
    · rw [heq] at hx
      simp only [Prod.mk.eta] at hx
      rcases List.mem_append.mp hx with hx | hx
      · exact List.mem_append_left _ (ih x hx)
      · exact List.mem_append_right _ hx
    · rw [heq] at hx
      exact List.mem_append_left _ (ih x hx)

/-- Every value in a reorder-map bucket of a pure-insert run was inserted
under that bucket's key. -/
lemma runInserts_mem_root :
    ∀ (l : List (K × V)) (k : K) (vs : List V),
      (k, vs) ∈ (runInserts l).root → ∀ v ∈ vs, (k, v) ∈ l := by
  intro l
  induction l using List.reverseRecOn with
  | nil => intro k vs hmem; simp [runInserts, new] at hmem
  | append_singleton l p ih =>
    intro k vs hmem v hv
    obtain ⟨pk, pv⟩ := p
    rw [runInserts_concat] at hmem
    rcases insert_shape (runInserts l) pk pv with ⟨heq, _⟩ | ⟨t, _, _, heq⟩
    · rw [heq] at hmem
      exact List.mem_append_left _ (ih k vs hmem v hv)
    · rw [heq] at hmem
      rcases mem_rootInsert (wf_runInserts l).rootSorted hmem with
        ⟨hin, _⟩ | ⟨rfl, rfl⟩ | ⟨rfl, vs0, hin, rfl⟩
      · exact List.mem_append_left _ (ih k vs hin v hv)
      · simp only [List.mem_singleton] at hv
        subst hv
        exact List.mem_append_right _ (List.mem_singleton_self _)
      · rcases List.mem_append.mp hv with hv | hv
        · exact List.mem_append_left _ (ih k vs0 hin v hv)
        · simp only [List.mem_singleton] at hv
          subst hv
          exact List.mem_append_right _ (List.mem_singleton_self _)

/-- Decompose a two-element sublist of `l ++ [p]`. -/
lemma pair_sublist_concat {α : Type} {x y p : α} {l : List α}
    (h : List.Sublist [x, y] (l ++ [p])) :
    List.Sublist [x, y] l ∨ (y = p ∧ x ∈ l) := by
  rcases List.sublist_append_iff.mp h with ⟨s1, s2, heq, h1, h2⟩
  cases s1 with
  | nil =>
    rw [List.nil_append] at heq
    subst heq
    have := h1
    have hlen := h2.length_le
    simp at hlen
  | cons a s1t =>
    cases s1t with
    | nil =>
      simp only [List.cons_append, List.nil_append, List.cons.injEq] at heq
      obtain ⟨rfl, hs2⟩ := heq
      subst hs2
      have hy := List.singleton_sublist.mp h2
      simp only [List.mem_singleton] at hy
      exact Or.inr ⟨hy, List.singleton_sublist.mp (by simpa using h1)⟩
    | cons b s1tt =>
      simp only [List.cons_append, List.cons.injEq] at heq
      obtain ⟨rfl, rfl, hrest⟩ := heq
      have : s1tt = [] ∧ s2 = [] := by
        constructor <;> [skip; skip] <;> cases s1tt <;> cases s2 <;>
          first | rfl | (exfalso; simp at hrest)
      obtain ⟨rfl, rfl⟩ := this
      exact Or.inl (by simpa using h1)

/-- With enough fuel, the drain of a well-formed queue returns exactly
`len` pairs: every `pop` until empty succeeds. -/
lemma drainFuel_length :
    ∀ (n : Nat) (q : TFifo K V), WF q → q.len ≤ n →
      (drainFuel n q).length = q.len := by
  intro n
  induction n with
  | zero =>
    intro q _ hle
    simp only [drainFuel, List.length_nil]
    omega
  | succ n ih =>
    intro q h hle
    by_cases h0 : q.len = 0
    · have hpop : q.pop = (none, q) := by simp [pop, h0]
      simp [drainFuel, hpop, h0]
    · rcases pop_shape h h0 with ⟨p, rest, hl, hpop, _⟩ |
        ⟨k0, v0, tl, rr, hr, hpop, _⟩ <;>
      · simp only [drainFuel, hpop, List.length_cons]
        have hih := ih (q.pop).2 h.pop (by rw [hpop]; simp; omega)
        rw [hpop] at hih
        dsimp only at hih
        omega

/-- Two pairs that were inserted in a given order and both ended up in the
tail list sit in the tail list in that same order. -/
lemma runInserts_list_order :
    ∀ (l : List (K × V)), l.Nodup → ∀ x y : K × V,
      List.Sublist [x, y] l →
      x ∈ (runInserts l).list → y ∈ (runInserts l).list →
      List.Sublist [x, y] (runInserts l).list := by
  intro l
  induction l using List.reverseRecOn with
  | nil =>
    intro _ x y hsub _ _
    have := hsub.length_le
    simp at this
  | append_singleton l p ih =>
    intro hnd x y hsub hx hy
    obtain ⟨pk, pv⟩ := p
    have hndl : l.Nodup := (List.nodup_append.mp hnd).1
    have hpl : (pk, pv) ∉ l := by
      intro hc
      exact (List.nodup_append.mp hnd).2.2 hc (List.mem_singleton_self _)
    rw [runInserts_concat] at hx hy ⊢
    rcases insert_shape (runInserts l) pk pv with ⟨heq, _⟩ | ⟨t, _, _, heq⟩
    · rw [heq] at hx hy ⊢
      simp only [Prod.mk.eta] at hx hy ⊢
      rcases pair_sublist_concat hsub with hsub' | ⟨rfl, hxl⟩
      · have hyl : y ∈ l := hsub'.subset (by simp)
        have hxl : x ∈ l := hsub'.subset (by simp)
        have hy' : y ∈ (runInserts l).list := by
          rcases List.mem_append.mp hy with h | h
          · exact h
          · simp only [List.mem_singleton] at h
            exact absurd (h ▸ hyl) hpl
        have hx' : x ∈ (runInserts l).list := by
          rcases List.mem_append.mp hx with h | h
          · exact h
          · simp only [List.mem_singleton] at h
            exact absurd (h ▸ hxl) hpl
        exact (ih hndl x y hsub' hx' hy').trans (List.sublist_append_left _ _)
      · have hx' : x ∈ (runInserts l).list := by
          rcases List.mem_append.mp hx with h | h
          · exact h
          · simp only [List.mem_singleton] at h
            exact absurd (h ▸ hxl) hpl
        have h1 : List.Sublist [x] (runInserts l).list := List.singleton_sublist.mpr hx'
        simpa using h1.append (List.Sublist.refl [(pk, pv)])
    · rw [heq] at hx hy ⊢
      have hxl : x ∈ l := runInserts_mem_list l x hx
      have hyl : y ∈ l := runInserts_mem_list l y hy
      rcases pair_sublist_concat hsub with hsub' | ⟨rfl, _⟩
      · exact ih hndl x y hsub' hx hy
      · exact absurd hyl hpl

/-- Two same-key pairs that were inserted in a given order and both ended up
in the same reorder-map bucket sit in that bucket in the same order. -/
lemma runInserts_root_order :
    ∀ (l : List (K × V)), l.Nodup → ∀ (k : K) (vx vy : V),
      List.Sublist [(k, vx), (k, vy)] l →
      ∀ vs, (k, vs) ∈ (runInserts l).root → vx ∈ vs → vy ∈ vs →
      List.Sublist [vx, vy] vs := by
  intro l
  induction l using List.reverseRecOn with
  | nil =>
    intro _ k vx vy _ vs hmem _ _
    simp [runInserts, new] at hmem
  | append_singleton l p ih =>
    intro hnd k vx vy hsub vs hmem hvx hvy
    obtain ⟨pk, pv⟩ := p
    have hndl : l.Nodup := (List.nodup_append.mp hnd).1
    have hpl : (pk, pv) ∉ l := by
      intro hc
      exact (List.nodup_append.mp hnd).2.2 hc (List.mem_singleton_self _)
    have hvxvy : vx ≠ vy := by
      intro hc
      subst hc
      have := hsub.nodup (hnd)
      simp at this
    rw [runInserts_concat] at hmem
    rcases insert_shape (runInserts l) pk pv with ⟨heq, _⟩ | ⟨t, _, _, heq⟩
    · rw [heq] at hmem
      have hxl : (k, vx) ∈ l := runInserts_mem_root l k vs hmem vx hvx
      have hyl : (k, vy) ∈ l := runInserts_mem_root l k vs hmem vy hvy
      rcases pair_sublist_concat hsub with hsub' | ⟨heqy, _⟩
      · exact ih hndl k vx vy hsub' vs hmem hvx hvy
      · exact absurd (heqy ▸ hyl) hpl
    · rw [heq] at hmem
      rcases mem_rootInsert (wf_runInserts l).rootSorted hmem with
        ⟨hin, hne⟩ | ⟨rfl, rfl⟩ | ⟨rfl, vs0, hin, rfl⟩
      · have hxl : (k, vx) ∈ l := runInserts_mem_root l k vs hin vx hvx
        have hyl : (k, vy) ∈ l := runInserts_mem_root l k vs hin vy hvy
        rcases pair_sublist_concat hsub with hsub' | ⟨heqy, _⟩
        · exact ih hndl k vx vy hsub' vs hin hvx hvy
        · exact absurd (congrArg Prod.fst heqy) hne
      · simp only [List.mem_singleton] at hvx hvy
        exact absurd (hvx.trans hvy.symm) hvxvy
      · rcases List.mem_append.mp hvy with hvy' | hvy'
        · have hvy_ne : vy ≠ pv := by
            intro hc
            subst hc
            have : (k, vy) ∈ l := runInserts_mem_root l k vs0 hin vy hvy'
            exact hpl this
          have hvx' : vx ∈ vs0 := by
            rcases List.mem_append.mp hvx with h | h
            · exact h
            · simp only [List.mem_singleton] at h
              subst h
              exfalso
              rcases pair_sublist_concat hsub with hsub' | ⟨heqy, _⟩
              · exact hpl (hsub'.subset (by simp))
              · exact hvy_ne (congrArg Prod.snd heqy)
          rcases pair_sublist_concat hsub with hsub' | ⟨heqy, _⟩
          · exact (ih hndl k vx vy hsub' vs0 hin hvx' hvy').trans
              (List.sublist_append_left _ _)
          · exact absurd (congrArg Prod.snd heqy) hvy_ne
        · simp only [List.mem_singleton] at hvy'
          subst hvy'
          have hvx' : vx ∈ vs0 := by
            rcases List.mem_append.mp hvx with h | h
            · exact h
            · simp only [List.mem_singleton] at h
              exact absurd h hvxvy
          have h1 : List.Sublist [vx] vs0 := List.singleton_sublist.mpr hvx'
          simpa using h1.append (List.Sublist.refl [vy])

omit [LinearOrder K] in
lemma tag_getElem? (ks : List K) (i : Nat) :
    (tag ks)[i]? = (ks[i]?).map (fun k => (k, i)) := by
  simp only [tag, List.getElem?_map, List.getElem?_enum]
  cases ks[i]? <;> rfl

omit [LinearOrder K] in
lemma tag_nodup (ks : List K) : (tag ks).Nodup := by
  have h : (tag ks).map Prod.snd = List.range ks.length := by
    simp only [tag, List.map_map]
    have h2 : (Prod.snd ∘ fun p : Nat × K => (p.2, p.1)) = Prod.fst := rfl
    rw [h2, List.enum_map_fst]
  exact List.Nodup.of_map Prod.snd (by rw [h]; exact List.nodup_range _)

/-- Two positions of a list give a two-element sublist. -/
lemma pair_sublist_of_getElem? {α : Type} :
    ∀ (l : List α) (i j : Nat) (a b : α), i < j →
      l[i]? = some a → l[j]? = some b → List.Sublist [a, b] l := by
  intro l
  induction l with
  | nil => intro i j a b _ ha _; simp at ha
  | cons x xs ih =>
    intro i j a b hij ha hb
    cases i with
    | zero =>
      simp only [List.getElem?_cons_zero, Option.some.injEq] at ha
      subst ha
      cases j with
      | zero => omega
      | succ j' =>
        simp only [List.getElem?_cons_succ] at hb
        have hbmem : b ∈ xs := by
          have := List.getElem?_eq_some_iff.mp hb
          obtain ⟨hj, hget⟩ := this
          exact hget ▸ List.getElem_mem _
        exact List.Sublist.cons₂ _ (List.singleton_sublist.mpr hbmem)
    | succ i' =>
      cases j with
      | zero => omega
      | succ j' =>
        simp only [List.getElem?_cons_succ] at ha hb
        exact List.Sublist.cons _ (ih i' j' a b (by omega) ha hb)

end TFifo

namespace TFifo

/-! ## Claim theorems -/

/-- C5: in every queue state reachable from the empty queue by any sequence
of `insert` and `pop` operations, the keys of the tail sequence are in
non-decreasing order from front to back. -/
theorem claim_run_list_sorted {K V : Type} [LinearOrder K] (ops : List (Op K V)) :
    ((run ops).list.map Prod.fst).Chain' (· ≤ ·) :=
  (List.pairwise_map.mpr (wf_run ops).listSorted).chain'

/-- C8: in every reachable queue state, every reorder-map entry holds a
non-empty value sub-sequence (a drained entry is removed in the same `pop`). -/
theorem claim_root_buckets_nonempty {K V : Type} [LinearOrder K]
    (ops : List (Op K V)) : ∀ e ∈ (run ops).root, e.2 ≠ [] :=
  (wf_run ops).rootNE

theorem claim_root_buckets_nonempty_witness :
    ((1, [5]) : Nat × List Nat) ∈ (run [Op.ins (2 : Nat) (0 : Nat), Op.ins 1 5]).root ∧
      ((1, [5]) : Nat × List Nat).2 ≠ [] :=
  ⟨by decide, claim_root_buckets_nonempty [Op.ins 2 0, Op.ins 1 5] (1, [5]) (by decide)⟩

/-- C2 (P1, order): for any sequence of `insert`s on an initially empty queue
followed by draining with `pop`, the returned key sequence is non-decreasing. -/
theorem claim_drain_keys_sorted {K V : Type} [LinearOrder K] (l : List (K × V)) :
    (((runInserts l).drain).map Prod.fst).Chain' (· ≤ ·) ∧
    ((runInserts l).drain).length = (runInserts l).len :=
  ⟨(drainFuel_sorted (runInserts l).len (runInserts l) (wf_runInserts l)).chain',
   drainFuel_length (runInserts l).len (runInserts l) (wf_runInserts l) (le_refl _)⟩

/-- C6 (P3, count consistency): after any operation sequence from empty,
`len` equals the number of inserts minus the number of `Some`-returning pops,
and `is_empty` holds iff `len = 0`. -/
theorem claim_len_count {K V : Type} [LinearOrder K] (ops : List (Op K V)) :
    (run ops).len + somePops new ops = insCount ops ∧
    ((run ops).is_empty = true ↔ (run ops).len = 0) := by
  constructor
  · have h := foldl_len_eq ops new wf_new
    simpa [run, new] using h
  · simp [is_empty]

/-- C4 (P4, peek/pop agreement): on a well-formed queue state, `peek` returns
exactly what an immediately following `pop` returns and removes; in
particular both are `none` in exactly the same states. -/
theorem claim_peek_pop_agree {K V : Type} [LinearOrder K] (q : TFifo K V)
    (h : WF q) : q.peek = (q.pop).1 :=
  peek_eq_pop_fst h

theorem claim_peek_pop_agree_witness :
    (⟨[(1, [10])], [(2, 20)], 2⟩ : TFifo Nat Nat).peek =
      ((⟨[(1, [10])], [(2, 20)], 2⟩ : TFifo Nat Nat).pop).1 :=
  claim_peek_pop_agree _ ⟨by decide, by decide, by decide, by decide⟩

/-- C7 (error handling): `pop`/`peek` return `none` iff the queue holds no
pairs; a `none`-returning `pop` leaves the state unchanged; otherwise `pop`
returns `some` pair and decrements the count by exactly one. -/
theorem claim_empty_behavior {K V : Type} [LinearOrder K] (q : TFifo K V)
    (h : WF q) :
    ((q.pop).1 = none ↔ q.len = 0) ∧
    (q.peek = none ↔ q.len = 0) ∧
    ((q.pop).1 = none → (q.pop).2 = q) ∧
    (q.len ≠ 0 → ∃ p, (q.pop).1 = some p ∧ (q.pop).2.len + 1 = q.len) := by
  have hsome : q.len ≠ 0 → ∃ p, (q.pop).1 = some p ∧ (q.pop).2.len + 1 = q.len := by
    intro h0
    rcases pop_shape h h0 with ⟨p, rest, hl, hpop, _⟩ |
      ⟨k0, v0, tl, rr, hr, hpop, _⟩
    · exact ⟨p, by rw [hpop], by rw [hpop]; simp; omega⟩
    · exact ⟨(k0, v0), by rw [hpop], by rw [hpop]; simp; omega⟩
  have hnone : (q.pop).1 = none ↔ q.len = 0 := by
    constructor
    · intro hn
      by_contra h0
      obtain ⟨p, hp, _⟩ := hsome h0
      rw [hp] at hn
      simp at hn
    · intro h0
      simp [pop, h0]
  refine ⟨hnone, ?_, ?_, hsome⟩
  · rw [peek_eq_pop_fst h]
    exact hnone
  · intro hn
    have h0 : q.len = 0 := hnone.mp hn
    simp [pop, h0]

theorem claim_empty_behavior_witness :
    (((⟨[], [(1, 10)], 1⟩ : TFifo Nat Nat).pop).1 = none ↔
      (⟨[], [(1, 10)], 1⟩ : TFifo Nat Nat).len = 0) ∧
    ((⟨[], [(1, 10)], 1⟩ : TFifo Nat Nat).peek = none ↔
      (⟨[], [(1, 10)], 1⟩ : TFifo Nat Nat).len = 0) ∧
    (((⟨[], [(1, 10)], 1⟩ : TFifo Nat Nat).pop).1 = none →
      ((⟨[], [(1, 10)], 1⟩ : TFifo Nat Nat).pop).2 = ⟨[], [(1, 10)], 1⟩) ∧
    ((⟨[], [(1, 10)], 1⟩ : TFifo Nat Nat).len ≠ 0 →
      ∃ p, ((⟨[], [(1, 10)], 1⟩ : TFifo Nat Nat).pop).1 = some p ∧
        ((⟨[], [(1, 10)], 1⟩ : TFifo Nat Nat).pop).2.len + 1 =
          (⟨[], [(1, 10)], 1⟩ : TFifo Nat Nat).len) :=
  claim_empty_behavior _ ⟨by decide, by decide, by decide, by decide⟩

/-- C1: on any non-empty state with both tiers non-empty, `pop` performs the
Variant B ascending merge: it compares the reorder map's lowest key `k0` with
the tail front key `k` and removes and returns the pair with the smaller key;
in particular a strictly smaller tail front wins over a non-empty reorder
map. -/
theorem claim_pop_variant_b {K V : Type} [LinearOrder K] (q : TFifo K V)
    (k : K) (v : V) (rest : List (K × V)) (k0 : K) (v0 : V) (tl : List V)
    (rr : List (K × List V)) (h0 : q.len ≠ 0)
    (hl : q.list = (k, v) :: rest) (hr : q.root = (k0, v0 :: tl) :: rr) :
    (k < k0 → q.pop = (some (k, v), ⟨q.root, rest, q.len - 1⟩)) ∧
    (k0 < k → q.pop = (some (k0, v0),
      ⟨if tl.isEmpty then rr else (k0, tl) :: rr, q.list, q.len - 1⟩)) := by
  obtain ⟨root, list, len⟩ := q
  simp only at h0 hl hr ⊢
  subst hl hr
  constructor
  · intro hlt
    simp [pop, h0, hlt]
  · intro hgt
    have hnlt : ¬k < k0 := not_lt.mpr (le_of_lt hgt)
    simp [pop, h0, hnlt, popFirstRoot]

theorem claim_pop_variant_b_witness :
    (⟨[(5, [50])], [(3, 30)], 2⟩ : TFifo Nat Nat).pop =
      (some (3, 30), ⟨[(5, [50])], [], 1⟩) ∧
    (⟨[(2, [20])], [(4, 40)], 2⟩ : TFifo Nat Nat).pop =
      (some (2, 20), ⟨[], [(4, 40)], 1⟩) := by
  constructor
  · exact (claim_pop_variant_b _ 3 30 [] 5 50 [] [] (by decide) rfl rfl).1 (by decide)
  · have h := (claim_pop_variant_b (⟨[(2, [20])], [(4, 40)], 2⟩ : TFifo Nat Nat)
      4 40 [] 2 20 [] [] (by decide) rfl rfl).2 (by decide)
    simpa using h

/-- C10: when the tail front key equals the reorder map's minimum key, `pop`
and `peek` both select the first value of the reorder map's minimum bucket,
not the tail front pair. -/
theorem claim_tie_prefers_root {K V : Type} [LinearOrder K] (q : TFifo K V)
    (k0 : K) (v : V) (v0 : V) (rest : List (K × V)) (tl : List V)
    (rr : List (K × List V)) (h0 : q.len ≠ 0)
    (hl : q.list = (k0, v) :: rest) (hr : q.root = (k0, v0 :: tl) :: rr) :
    (q.pop).1 = some (k0, v0) ∧ q.peek = some (k0, v0) := by
  obtain ⟨root, list, len⟩ := q
  simp only at h0 hl hr ⊢
  subst hl hr
  constructor
  · simp [pop, h0, popFirstRoot]
  · simp [peek, h0]

theorem claim_tie_prefers_root_witness :
    ((⟨[(2, [9])], [(2, 7)], 2⟩ : TFifo Nat Nat).pop).1 = some (2, 9) ∧
    (⟨[(2, [9])], [(2, 7)], 2⟩ : TFifo Nat Nat).peek = some (2, 9) :=
  claim_tie_prefers_root _ 2 7 9 [] [] [] (by decide) rfl rfl

/-- C3 counterexample: the literal P2 stability claim fails.  Tagging each
insertion with its position, inserting keys `[2, 3, 2]` puts `(2, 0)` in the
tail list and `(2, 2)` in the reorder map, and the drain returns
`[(2, 2), (2, 0), (3, 1)]` — the two key-2 pairs come out in reverse
insertion order. -/
theorem claim_stability_counterexample :
    ¬ (∀ (ks : List Nat) (i j k : Nat), i < j →
        ks[i]? = some k → ks[j]? = some k →
        List.Sublist [(k, i), (k, j)] (drain (runInserts (tag ks)))) := by
  intro h
  have h2 := h [2, 3, 2] 0 2 2 (by decide) (by decide) (by decide)
  exact absurd h2 (by decide)

/-- C3 (amended): two same-key insertions that end up in the same tier —
both in the tail list, or both in the same reorder-map bucket — are drained
in their relative insertion order. -/
theorem claim_stability_same_tier {K : Type} [LinearOrder K] (ks : List K)
    (i j : Nat) (k : K) (hij : i < j)
    (hi : ks[i]? = some k) (hj : ks[j]? = some k)
    (htier :
      ((k, i) ∈ (runInserts (tag ks)).list ∧ (k, j) ∈ (runInserts (tag ks)).list) ∨
      (∃ vs, (k, vs) ∈ (runInserts (tag ks)).root ∧ i ∈ vs ∧ j ∈ vs)) :
    List.Sublist [(k, i), (k, j)] (drain (runInserts (tag ks))) := by
  have hsub : List.Sublist [(k, i), (k, j)] (tag ks) :=
    pair_sublist_of_getElem? (tag ks) i j (k, i) (k, j) hij
      (by rw [tag_getElem?, hi]; rfl) (by rw [tag_getElem?, hj]; rfl)
  have hnd := tag_nodup ks
  have hwf := wf_runInserts (tag ks)
  rcases htier with ⟨hx, hy⟩ | ⟨vs, hvs, hiv, hjv⟩
  · have h1 := runInserts_list_order (tag ks) hnd (k, i) (k, j) hsub hx hy
    have h2 := list_sublist_drainFuel (runInserts (tag ks)).len _ hwf (le_refl _)
    exact h1.trans h2
  · have h1 := runInserts_root_order (tag ks) hnd k i j hsub vs hvs hiv hjv
    have h2 := bucket_sublist_drainFuel (runInserts (tag ks)).len _ hwf (le_refl _)
      k vs hvs
    have h3 := (h1.map (fun v => (k, v))).trans h2
    simpa using h3

theorem claim_stability_same_tier_witness :
    List.Sublist [((1 : Nat), (0 : Nat)), (1, 1)]
      (drain (runInserts (tag [1, 1]))) :=
  claim_stability_same_tier [1, 1] 0 1 1 (by decide) (by decide) (by decide)
    (Or.inl ⟨by decide, by decide⟩)

end TFifo

/-! ## Scaling lemmas (C9) -/

/-- Core computation: for in-range operands the double-width wrap and the
final narrowing cast are both identities, so the scaling is `v * f >> w`. -/
lemma reciprocal_scale_core (w val ep : Nat) (hv : val < 2 ^ w) (he : ep < 2 ^ w) :
    val * ep % 2 ^ (2 * w) / 2 ^ w % 2 ^ w = val * ep / 2 ^ w := by
  have hsq : (2 : Nat) ^ (2 * w) = 2 ^ w * 2 ^ w := by rw [two_mul, pow_add]
  have hlt : val * ep < 2 ^ (2 * w) := by
    rw [hsq]
    calc val * ep ≤ val * 2 ^ w := Nat.mul_le_mul_left _ (le_of_lt he)
      _ < 2 ^ w * 2 ^ w := (Nat.mul_lt_mul_right (Nat.two_pow_pos w)).mpr hv
  rw [Nat.mod_eq_of_lt hlt]
  have hdiv : val * ep / 2 ^ w < 2 ^ w := by
    rw [Nat.div_lt_iff_lt_mul (Nat.two_pow_pos w)]
    rw [hsq] at hlt
    exact hlt
  rw [Nat.mod_eq_of_lt hdiv]

/-- Range bound of the multiply-shift scaling. -/
lemma reciprocal_scale_bound (w val ep : Nat) (hv : val < 2 ^ w) (hep : 0 < ep) :
    val * ep / 2 ^ w < ep := by
  rw [Nat.div_lt_iff_lt_mul (Nat.two_pow_pos w)]
  calc val * ep = ep * val := Nat.mul_comm _ _
    _ < ep * 2 ^ w := (Nat.mul_lt_mul_left hep).mpr hv

/-- C9 (P6, scaling correctness): for each width `w ∈ {8, 16, 32}` and
in-range operands, the scaling function computes `val * ep >> w` through the
double-width intermediate; when `ep > 0` the result is strictly below `ep`;
it is monotone non-decreasing in `val`; and `scale(255, 128) = 127`. -/
theorem claim_reciprocal_scale :
    (∀ val ep : Nat, val < 2 ^ 8 → ep < 2 ^ 8 →
      reciprocal_scale_u8 val ep = val * ep / 2 ^ 8 ∧
      (0 < ep → reciprocal_scale_u8 val ep < ep) ∧
      (∀ val2, val ≤ val2 → val2 < 2 ^ 8 →
        reciprocal_scale_u8 val ep ≤ reciprocal_scale_u8 val2 ep)) ∧
    (∀ val ep : Nat, val < 2 ^ 16 → ep < 2 ^ 16 →
      reciprocal_scale_u16 val ep = val * ep / 2 ^ 16 ∧
      (0 < ep → reciprocal_scale_u16 val ep < ep) ∧
      (∀ val2, val ≤ val2 → val2 < 2 ^ 16 →
        reciprocal_scale_u16 val ep ≤ reciprocal_scale_u16 val2 ep)) ∧
    (∀ val ep : Nat, val < 2 ^ 32 → ep < 2 ^ 32 →
      reciprocal_scale_u32 val ep = val * ep / 2 ^ 32 ∧
      (0 < ep → reciprocal_scale_u32 val ep < ep) ∧
      (∀ val2, val ≤ val2 → val2 < 2 ^ 32 →
        reciprocal_scale_u32 val ep ≤ reciprocal_scale_u32 val2 ep)) ∧
    reciprocal_scale_u8 255 128 = 127 := by
  have h8 : ∀ val ep : Nat, val < 2 ^ 8 → ep < 2 ^ 8 →
      reciprocal_scale_u8 val ep = val * ep / 2 ^ 8 := by
    intro val ep hv he
    have := reciprocal_scale_core 8 val ep hv he
    norm_num at this
    exact this
  have h16 : ∀ val ep : Nat, val < 2 ^ 16 → ep < 2 ^ 16 →
      reciprocal_scale_u16 val ep = val * ep / 2 ^ 16 := by
    intro val ep hv he
    have := reciprocal_scale_core 16 val ep hv he
    norm_num at this
    exact this
  have h32 : ∀ val ep : Nat, val < 2 ^ 32 → ep < 2 ^ 32 →
      reciprocal_scale_u32 val ep = val * ep / 2 ^ 32 := by
    intro val ep hv he
    have := reciprocal_scale_core 32 val ep hv he
    norm_num at this
    exact this
  refine ⟨fun val ep hv he => ⟨h8 val ep hv he, ?_, ?_⟩,
    fun val ep hv he => ⟨h16 val ep hv he, ?_, ?_⟩,
    fun val ep hv he => ⟨h32 val ep hv he, ?_, ?_⟩, by decide⟩
  · intro hep
    rw [h8 val ep hv he]
    exact reciprocal_scale_bound 8 val ep hv hep
  · intro val2 hle hv2
    rw [h8 val ep hv he, h8 val2 ep hv2 he]
    exact Nat.div_le_div_right (Nat.mul_le_mul_right ep hle)
  · intro hep
    rw [h16 val ep hv he]
    exact reciprocal_scale_bound 16 val ep hv hep
  · intro val2 hle hv2
    rw [h16 val ep hv he, h16 val2 ep hv2 he]
    exact Nat.div_le_div_right (Nat.mul_le_mul_right ep hle)
  · intro hep
    rw [h32 val ep hv he]
    exact reciprocal_scale_bound 32 val ep hv hep
  · intro val2 hle hv2
    rw [h32 val ep hv he, h32 val2 ep hv2 he]
    exact Nat.div_le_div_right (Nat.mul_le_mul_right ep hle)

theorem claim_reciprocal_scale_witness :
    reciprocal_scale_u8 200 100 = 200 * 100 / 2 ^ 8 ∧
    reciprocal_scale_u8 200 100 < 100 ∧
    reciprocal_scale_u8 100 100 ≤ reciprocal_scale_u8 200 100 :=
  ⟨(claim_reciprocal_scale.1 200 100 (by decide) (by decide)).1,
   (claim_reciprocal_scale.1 200 100 (by decide) (by decide)).2.1 (by decide),
   (claim_reciprocal_scale.1 100 100 (by decide) (by decide)).2.2 200
     (by decide) (by decide)⟩
